import Mathlib

/-!
Verification of `src/uniform-tilings/honeycomb.py` (3d hyperbolic honeycombs
in the Poincaré ball model).

The Python source is shallowly embedded here.  Coordinates are modelled as
exact rationals: a numpy 1d float array becomes a `List ℚ`.  The external
collaborators (`helpers.normalize`, `helpers.project_poincare`,
`helpers.is_degenerate`, `helpers.get_hyperbolic_honeycomb_mirrors`,
`helpers.get_point_from_distance` and the word-traversal engine
`coxeter.CoxeterGroup`) live outside the repository's source directory, so
they enter the embedding as parameters; the hypotheses placed on them are
taken from their documented interface in the specification.
-/

/-- Exact-rational model of an ambient coordinate vector (a numpy 1d array). -/
abbrev Vec : Type := List ℚ

/-- `np.dot` on two vectors of the same length. -/
def dot (v w : Vec) : ℚ := (List.zipWith (fun a b => a * b) v w).sum

/-- Pointwise difference `v - w` of numpy arrays. -/
def vsub (v w : Vec) : Vec := List.zipWith (fun a b => a - b) v w

/-- Pointwise sum `v + w` of numpy arrays (`np.sum(points, axis=0)` on a
pair of points). -/
def vadd (v w : Vec) : Vec := List.zipWith (fun a b => a + b) v w

/-- The reflection built by `Honeycomb.get_reflections` (source lines
126–130): `reflect(v, normal) = v - 2 * np.dot(v, normal) * normal`. -/
def reflect (normal v : Vec) : Vec :=
  List.zipWith (fun a b => a - 2 * dot v normal * b) v normal

/-- Rounding one coordinate to 8 decimal digits, as `np.round(v, 8)` does.
(`np.round` breaks exact ties to even; no claim depends on tie behaviour,
which the spec explicitly leaves uncovered.) -/
def roundTo8 (x : ℚ) : ℚ := (round (x * 10 ^ 8) : ℤ) / 10 ^ 8

/-- `vround(v)`: convert a numpy 1d array to a rounded, hashable tuple
(source lines 20–23). -/
def vround (v : Vec) : Vec := v.map roundTo8

theorem roundTo8_idem (x : ℚ) : roundTo8 (roundTo8 x) = roundTo8 x := by
  unfold roundTo8
  rw [div_mul_cancel₀]
  · rw [round_intCast]
  · norm_num

theorem vround_idem (v : Vec) : vround (vround v) = vround v := by
  unfold vround
  rw [List.map_map]
  exact List.map_congr_left fun x _ => roundTo8_idem x

theorem zipWith_linear_sum (c : ℚ) :
    ∀ v n : Vec, v.length = n.length →
      (List.zipWith (fun a b => a * b) (List.zipWith (fun a b => a - c * b) v n) n).sum
        = (List.zipWith (fun a b => a * b) v n).sum
            - c * (List.zipWith (fun a b => a * b) n n).sum
  | [], [], _ => by simp
  | [], _ :: _, h => by simp at h
  | _ :: _, [], h => by simp at h
  | x :: v, y :: n, h => by
    have ih := zipWith_linear_sum c v n (by simpa using h)
    simp only [List.zipWith_cons_cons, List.sum_cons, ih]
    ring

theorem zipWith_reflect_cancel (c c' : ℚ) (hc : c' = -c) :
    ∀ v n : Vec, v.length = n.length →
      List.zipWith (fun a b => a - c' * b)
        (List.zipWith (fun a b => a - c * b) v n) n = v
  | [], [], _ => by simp
  | [], _ :: _, h => by simp at h
  | _ :: _, [], h => by simp at h
  | x :: v, y :: n, h => by
    have ih := zipWith_reflect_cancel c c' hc v n (by simpa using h)
    simp only [List.zipWith_cons_cons, ih, List.cons.injEq, and_true]
    rw [hc]; ring

theorem dot_reflect_left (n v : Vec) (hlen : v.length = n.length)
    (h : dot n n = 1) : dot (reflect n v) n = -(dot v n) := by
  unfold reflect dot at *
  rw [zipWith_linear_sum _ v n hlen, h]
  ring

theorem reflect_length (n v : Vec) (hlen : v.length = n.length) :
    (reflect n v).length = n.length := by
  simp [reflect, hlen]

/-- C8: each reflection built by `get_reflections` from a unit-length mirror
normal is an involution: applying it twice returns the point exactly (hence
a fortiori within the canonicalization tolerance). -/
theorem reflect_involution (n v : Vec) (hlen : v.length = n.length)
    (h : dot n n = 1) : reflect n (reflect n v) = v := by
  show List.zipWith _ (reflect n v) n = v
  have hmid : dot (reflect n v) n = -(dot v n) := dot_reflect_left n v hlen h
  calc List.zipWith (fun a b => a - 2 * dot (reflect n v) n * b) (reflect n v) n
      = List.zipWith (fun a b => a - 2 * -(dot v n) * b)
          (List.zipWith (fun a b => a - 2 * dot v n * b) v n) n := by
        rw [hmid]; rfl
    _ = v := zipWith_reflect_cancel _ _ (by ring) v n hlen

/-- Concrete instance of C8: the mirror normal (3/5, 4/5) has unit length and
reflecting the point (1, 2) twice gives back (1, 2). -/
theorem reflect_involution_witness :
    ([(1 : ℚ), 2] : Vec).length = ([(3 : ℚ)/5, 4/5] : Vec).length ∧
      dot [(3 : ℚ)/5, 4/5] [(3 : ℚ)/5, 4/5] = 1 ∧
      reflect [(3 : ℚ)/5, 4/5] (reflect [(3 : ℚ)/5, 4/5] [(1 : ℚ), 2]) = [(1 : ℚ), 2] := by
  refine ⟨rfl, by norm_num [dot], ?_⟩
  exact reflect_involution [(3 : ℚ)/5, 4/5] [(1 : ℚ), 2] rfl (by norm_num [dot])

/-! ## The Cell component (source lines 33–88) -/

/-- `centroid((p, q))` (source lines 26–30): the canonicalized midpoint key
of an edge, `vround(helpers.normalize(p + q))`.  `normalize` is the external
normalization helper and is passed in as a parameter. -/
def centroidKey (normalize : Vec → Vec) (p q : Vec) : Vec :=
  vround (normalize (vadd p q))

/-- The data a `Cell` is constructed from, together with the word list its
scoped group engine (`CoxeterGroup(cox_mat)`, external) yields from
`self.G.traverse()` in `build_geometry`, and the external `helpers.normalize`
used by `centroid`. -/
structure CellData where
  v0 : Vec
  active : List Bool
  reflections : List (Vec → Vec)
  words : List (List ℕ)
  normalize : Vec → Vec

/-- Applying a word's reflections right-to-left, before the final rounding
(the loop body of `Cell.transform` / `Honeycomb.transform`).  An index
outside the reflection list (which in Python would raise) is totalized to
the identity; all claims only involve in-range generator indices. -/
def transform_raw (refs : List (Vec → Vec)) (word : List ℕ) (v : Vec) : Vec :=
  word.foldr (fun w acc => (refs.getD w (fun x => x)) acc) v

/-- `Cell.transform` / `Honeycomb.transform` (source lines 57–60 and
132–135): apply the word right-to-left, then return `vround` of the result. -/
def transform (refs : List (Vec → Vec)) (word : List ℕ) (v : Vec) : Vec :=
  vround (transform_raw refs word v)

/-- `Cell.get_vertices` (source lines 65–70): first-seen-order deduplicated
list of the images of `v0` under all words. -/
def get_vertices (C : CellData) : List Vec :=
  C.words.foldl
    (fun acc word =>
      let v := transform C.reflections word C.v0
      if v ∈ acc then acc else acc ++ [v]) []

/-- The indices `i` with `active[i]` true, in order — the `i` visited by
`for i, active in enumerate(self.active): if active:` in `Cell.get_edges`. -/
def activeIndices (active : List Bool) : List ℕ :=
  (List.range active.length).filter (fun i => active.getD i false)

/-- One step of the inner loop of `Cell.get_edges` (source lines 81–87):
state is `(edge_coords, edgehash)`. -/
def get_edges_step (C : CellData) (i : ℕ) (st : List (Vec × Vec) × List Vec)
    (word : List ℕ) : List (Vec × Vec) × List Vec :=
  let p1 := transform C.reflections word C.v0
  let p2 := transform C.reflections (word ++ [i]) C.v0
  let q := centroidKey C.normalize p1 p2
  if q ∈ st.2 then st else (st.1 ++ [(p1, p2)], st.2 ++ [q])

/-- `Cell.get_edges` (source lines 72–88). -/
def get_edges (C : CellData) : List (Vec × Vec) :=
  ((activeIndices C.active).foldl
    (fun st i => C.words.foldl (get_edges_step C i) st) ([], [])).1

/-- The read-only result of `Cell.build_geometry` (source lines 50–55);
`num_vertices` and `num_edges` are the lengths of the two lists. -/
structure CellResult where
  vertices_coords : List Vec
  edge_coords : List (Vec × Vec)
deriving DecidableEq

/-- `Cell(...).build_geometry()`. -/
def build_geometry (C : CellData) : CellResult :=
  { vertices_coords := get_vertices C, edge_coords := get_edges C }

theorem get_vertices_mem_mono (C : CellData) :
    ∀ (l : List (List ℕ)) (acc : List Vec) (x : Vec), x ∈ acc →
      x ∈ l.foldl
        (fun acc word =>
          let v := transform C.reflections word C.v0
          if v ∈ acc then acc else acc ++ [v]) acc
  | [], _, _, hx => hx
  | w :: l, acc, x, hx => by
    refine get_vertices_mem_mono C l _ x ?_
    by_cases h : transform C.reflections w C.v0 ∈ acc <;>
      simp [h, hx]

theorem get_vertices_complete_aux (C : CellData) :
    ∀ (l : List (List ℕ)) (acc : List Vec) (w : List ℕ), w ∈ l →
      transform C.reflections w C.v0
        ∈ l.foldl
            (fun acc word =>
              let v := transform C.reflections word C.v0
              if v ∈ acc then acc else acc ++ [v]) acc
  | [], _, _, hw => by simp at hw
  | w' :: l, acc, w, hw => by
    rcases List.mem_cons.mp hw with h | h
    · subst h
      refine get_vertices_mem_mono C l _ _ ?_
      by_cases hmem : transform C.reflections w C.v0 ∈ acc <;> simp [hmem]
    · exact get_vertices_complete_aux C l _ w h

/-- Every word's image of the initial point is in the cell's vertex list. -/
theorem get_vertices_complete (C : CellData) (w : List ℕ) (hw : w ∈ C.words) :
    transform C.reflections w C.v0 ∈ get_vertices C :=
  get_vertices_complete_aux C C.words [] w hw

theorem get_vertices_pos (C : CellData) (hw : C.words ≠ []) :
    0 < (get_vertices C).length := by
  obtain ⟨w, ws, hcons⟩ := List.exists_cons_of_ne_nil hw
  have hmem : transform C.reflections w C.v0 ∈ get_vertices C :=
    get_vertices_complete C w (by rw [hcons]; exact List.mem_cons_self _ _)
  exact List.length_pos.mpr (List.ne_nil_of_mem hmem)

theorem get_edges_fold_extend (C : CellData) (i : ℕ) :
    ∀ (ws : List (List ℕ)) (st : List (Vec × Vec) × List Vec),
      ∃ rest, (ws.foldl (get_edges_step C i) st).1 = st.1 ++ rest ∧
        ∀ e ∈ rest, ∃ w ∈ ws,
          e = (transform C.reflections w C.v0,
               transform C.reflections (w ++ [i]) C.v0)
  | [], st => ⟨[], by simp⟩
  | w :: ws, st => by
    obtain ⟨rest, hrest, hshape⟩ := get_edges_fold_extend C i ws (get_edges_step C i st w)
    rw [List.foldl_cons] at *
    unfold get_edges_step at hrest ⊢
    by_cases hq : centroidKey C.normalize (transform C.reflections w C.v0)
        (transform C.reflections (w ++ [i]) C.v0) ∈ st.2
    · refine ⟨rest, ?_, ?_⟩
      · simpa [hq] using hrest
      · intro e he
        obtain ⟨w', hw', he'⟩ := hshape e he
        exact ⟨w', List.mem_cons_of_mem _ hw', he'⟩
    · simp only [hq, if_neg, ite_false] at hrest
      refine ⟨(transform C.reflections w C.v0,
               transform C.reflections (w ++ [i]) C.v0) :: rest, ?_, ?_⟩
      · simpa [hq] using hrest
      · intro e he
        rcases List.mem_cons.mp he with h | h
        · exact ⟨w, List.mem_cons_self _ _, h⟩
        · obtain ⟨w', hw', he'⟩ := hshape e h
          exact ⟨w', List.mem_cons_of_mem _ hw', he'⟩

theorem get_edges_outer_extend (C : CellData) :
    ∀ (idxs : List ℕ) (st : List (Vec × Vec) × List Vec),
      ∃ rest,
        (idxs.foldl (fun st i => C.words.foldl (get_edges_step C i) st) st).1
          = st.1 ++ rest ∧
        ∀ e ∈ rest, ∃ i ∈ idxs, ∃ w ∈ C.words,
          e = (transform C.reflections w C.v0,
               transform C.reflections (w ++ [i]) C.v0)
  | [], st => ⟨[], by simp⟩
  | i :: idxs, st => by
    obtain ⟨r1, hr1, hs1⟩ := get_edges_fold_extend C i C.words st
    obtain ⟨r2, hr2, hs2⟩ :=
      get_edges_outer_extend C idxs (C.words.foldl (get_edges_step C i) st)
    refine ⟨r1 ++ r2, ?_, ?_⟩
    · rw [List.foldl_cons, hr2, hr1, List.append_assoc]
    · intro e he
      rcases List.mem_append.mp he with h | h
      · obtain ⟨w, hw, he'⟩ := hs1 e h
        exact ⟨i, List.mem_cons_self _ _, w, hw, he'⟩
      · obtain ⟨i', hi', w, hw, he'⟩ := hs2 e h
        exact ⟨i', List.mem_cons_of_mem _ hi', w, hw, he'⟩

/-- Every recorded edge of a cell comes from some word `w` and some active
generator `i`, as the pair of `transform` images of `v0`. -/
theorem get_edges_shape (C : CellData) :
    ∀ e ∈ get_edges C, ∃ i ∈ activeIndices C.active, ∃ w ∈ C.words,
      e = (transform C.reflections w C.v0,
           transform C.reflections (w ++ [i]) C.v0) := by
  intro e he
  obtain ⟨rest, hrest, hshape⟩ := get_edges_outer_extend C (activeIndices C.active) ([], [])
  unfold get_edges at he
  rw [hrest] at he
  exact hshape e (by simpa using he)

theorem get_edges_pos (C : CellData) (hw : C.words ≠ [])
    (ha : activeIndices C.active ≠ []) : 0 < (get_edges C).length := by
  obtain ⟨i, idxs, hi⟩ := List.exists_cons_of_ne_nil ha
  obtain ⟨w, ws, hws⟩ := List.exists_cons_of_ne_nil hw
  unfold get_edges
  rw [hi, List.foldl_cons]
  obtain ⟨r2, hr2, _⟩ :=
    get_edges_outer_extend C idxs (C.words.foldl (get_edges_step C i) ([], []))
  rw [hr2]
  obtain ⟨r1, hr1, _⟩ := get_edges_fold_extend C i ws (get_edges_step C i ([], []) w)
  rw [hws, List.foldl_cons, hr1]
  have hstep : (get_edges_step C i ([], []) w).1
      = [(transform C.reflections w C.v0,
          transform C.reflections (w ++ [i]) C.v0)] := by
    unfold get_edges_step
    simp
  rw [hstep]
  simp

/-! ## Claim C2: what exactly is stored for a recorded edge -/

/-- A tiny concrete cell: one mirror with unit normal (1), initial point
(10⁻⁹), one active generator, the traversal yielding just the identity
word.  Its initial point is not fixed by the 8-decimal rounding, which
makes the rounding done inside `Cell.transform` observable. -/
def cexCell : CellData :=
  { v0 := [1 / 10 ^ 9]
    active := [true]
    reflections := [reflect [1]]
    words := [[]]
    normalize := fun v => v }

/-- C2 (counterexample): the claim says the stored edge is the *unrounded*
coordinate pair of its endpoints.  In the code `Cell.transform` already
rounds (`return vround(v)`), so the stored endpoints are the rounded
points: for `cexCell` the single recorded edge is `([0], [0])`, while the
unrounded endpoint coordinates are `[10⁻⁹]` and `[-10⁻⁹]`. -/
theorem stored_edge_unrounded_cex :
    get_edges cexCell = [([(0 : ℚ)], [(0 : ℚ)])] ∧
      transform_raw cexCell.reflections [] cexCell.v0 = [(1 : ℚ) / 10 ^ 9] ∧
      transform_raw cexCell.reflections ([] ++ [0]) cexCell.v0 = [-(1 : ℚ) / 10 ^ 9] ∧
      ([(0 : ℚ)] : Vec) ≠ [(1 : ℚ) / 10 ^ 9] ∧
      ([(0 : ℚ)] : Vec) ≠ [-(1 : ℚ) / 10 ^ 9] := by
  have ha : activeIndices [true] = [0] := by decide
  refine ⟨?_, ?_, ?_, by norm_num, by norm_num⟩
  · norm_num [get_edges, cexCell, ha, get_edges_step, transform,
      transform_raw, centroidKey, vadd, vround, roundTo8, round_eq, reflect, dot,
      List.getD, List.getElem?_cons_zero, Option.getD_some]
  · norm_num [transform_raw, cexCell]
  · norm_num [transform_raw, cexCell, reflect, dot, List.getD,
      List.getElem?_cons_zero, Option.getD_some]

/-- C2 (amended): when a cell records a new edge, the stored value is the
pair of `Cell.transform` outputs for the word `w` and its extension
`w + (i,)` — i.e. each endpoint individually canonicalized by `vround`
(because `transform` itself rounds), stored with no further processing;
the midpoint key is canonicalized separately and only used for
deduplication. -/
theorem stored_edge_is_transform_pair (C : CellData) :
    ∀ e ∈ get_edges C, ∃ i ∈ activeIndices C.active, ∃ w ∈ C.words,
      e = (transform C.reflections w C.v0,
           transform C.reflections (w ++ [i]) C.v0) ∧
      e.1 = vround (transform_raw C.reflections w C.v0) ∧
      e.2 = vround (transform_raw C.reflections (w ++ [i]) C.v0) := by
  intro e he
  obtain ⟨i, hi, w, hw, hshape⟩ := get_edges_shape C e he
  exact ⟨i, hi, w, hw, hshape, by rw [hshape]; rfl, by rw [hshape]; rfl⟩

/-- Concrete instance of C2 (amended) at `cexCell` and its unique edge. -/
theorem stored_edge_is_transform_pair_witness :
    (([(0 : ℚ)], [(0 : ℚ)]) ∈ get_edges cexCell) ∧
      (∃ i ∈ activeIndices cexCell.active, ∃ w ∈ cexCell.words,
        (([(0 : ℚ)], [(0 : ℚ)]) : Vec × Vec)
          = (transform cexCell.reflections w cexCell.v0,
             transform cexCell.reflections (w ++ [i]) cexCell.v0) ∧
        ([(0 : ℚ)] : Vec) = vround (transform_raw cexCell.reflections w cexCell.v0) ∧
        ([(0 : ℚ)] : Vec) = vround (transform_raw cexCell.reflections (w ++ [i]) cexCell.v0)) := by
  have ha : activeIndices [true] = [0] := by decide
  have hev : get_edges cexCell = [([(0 : ℚ)], [(0 : ℚ)])] := by
    norm_num [get_edges, cexCell, ha, get_edges_step, transform,
      transform_raw, centroidKey, vadd, vround, roundTo8, round_eq, reflect, dot,
      List.getD, List.getElem?_cons_zero, Option.getD_some]
  have hmem : (([(0 : ℚ)], [(0 : ℚ)]) ∈ get_edges cexCell) := by
    rw [hev]; exact List.mem_singleton.mpr rfl
  exact ⟨hmem, stored_edge_is_transform_pair cexCell _ hmem⟩

/-! ## The Honeycomb component (source lines 91–161) -/

/-- The external collaborators consumed by `Honeycomb` (spec §6): geometry
helpers and the word-traversal engine.  `is_degenerate` receives the
generator triple (which, for the fixed diagram, determines the restricted
Coxeter submatrix `cox_mat[np.ix_(triple, triple)]` passed in the source)
together with the restricted active flags; `subgroup_words` is the full
traversal of the scoped 3-generator `CoxeterGroup`, its words indexing
into the cell's reflection list. -/
structure ExternalHelpers where
  get_hyperbolic_honeycomb_mirrors : List ℚ → List Vec
  get_point_from_distance : List Vec → List ℚ → Vec
  is_degenerate : List ℚ → List ℕ → List Bool → Bool
  normalize : Vec → Vec
  project_poincare : Vec → Vec
  subgroup_words : List ℚ → List ℕ → List (List ℕ)

/-- `itertools.combinations`, in its lexicographic emission order. -/
def combinations {α : Type} : List α → ℕ → List (List α)
  | _, 0 => [[]]
  | [], _ + 1 => []
  | x :: xs, r + 1 => (combinations xs r).map (x :: ·) ++ combinations xs (r + 1)

/-- The read-only data `Honeycomb.__init__` establishes (source lines
93–124).  `rank = 4`: `make_symmetry_matrix` of a 6-entry diagram is the
4×4 Coxeter matrix, so `gens = (0, 1, 2, 3)`. -/
structure HoneycombData where
  diagram : List ℚ
  active : List Bool
  mirrors : List Vec
  reflections : List (Vec → Vec)
  init_v : Vec
  fundamental_cells : List (List ℕ × CellResult)
  normalize : Vec → Vec
  project : Vec → Vec

/-- The restricted active flags of a generator triple. -/
def subActive (active : List Bool) (t : List ℕ) : List Bool :=
  t.map (fun k => active.getD k false)

/-- The `Cell(cox_mat, self.init_v, active, refs)` constructed for one
triple in `get_fundamental_cells` (source line 159), together with the
words its scoped engine will yield. -/
def subCellData (ext : ExternalHelpers) (diagram : List ℚ)
    (reflections : List (Vec → Vec)) (active : List Bool) (init_v : Vec)
    (t : List ℕ) : CellData :=
  { v0 := init_v
    active := subActive active t
    reflections := t.map (fun k => reflections.getD k (fun v => v))
    words := ext.subgroup_words diagram t
    normalize := ext.normalize }

/-- `Honeycomb.get_fundamental_cells` (source lines 146–161): for every
3-element subset of the 4 generators, skip it if degenerate, otherwise
build its cell; the source's insertion-ordered dict becomes an
association list. -/
def get_fundamental_cells (ext : ExternalHelpers) (diagram : List ℚ)
    (reflections : List (Vec → Vec)) (active : List Bool) (init_v : Vec) :
    List (List ℕ × CellResult) :=
  (combinations (List.range 4) 3).foldl
    (fun result t =>
      if ext.is_degenerate diagram t (subActive active t) then result
      else result ++ [(t, build_geometry (subCellData ext diagram reflections active init_v t))])
    []

/-- `Honeycomb.__init__` (source lines 93–124): validate the input arities,
then build mirrors, reflections, active flags, initial point and the
fundamental cells.  The `ValueError("Invalid input dimension")` of the
source is the spec's `InvalidInputError`. -/
def honeycomb_init (ext : ExternalHelpers) (coxeter_diagram : List ℚ)
    (init_dist : List ℚ) : Except String HoneycombData :=
  if coxeter_diagram.length ≠ 6 ∨ init_dist.length ≠ 4 then
    Except.error "Invalid input dimension"
  else
    let active := init_dist.map (fun x => decide (x ≠ 0))
    let mirrors := ext.get_hyperbolic_honeycomb_mirrors coxeter_diagram
    let reflections := mirrors.map (fun n => reflect n)
    Except.ok
      { diagram := coxeter_diagram
        active := active
        mirrors := mirrors
        reflections := reflections
        init_v := ext.get_point_from_distance mirrors init_dist
        fundamental_cells := get_fundamental_cells ext coxeter_diagram reflections
          active (ext.get_point_from_distance mirrors init_dist)
        normalize := ext.normalize
        project := ext.project_poincare }

theorem get_fundamental_cells_foldl_eq (ext : ExternalHelpers) (diagram : List ℚ)
    (reflections : List (Vec → Vec)) (active : List Bool) (init_v : Vec) :
    ∀ (l : List (List ℕ)) (acc : List (List ℕ × CellResult)),
      l.foldl
        (fun result t =>
          if ext.is_degenerate diagram t (subActive active t) then result
          else result ++ [(t, build_geometry (subCellData ext diagram reflections active init_v t))])
        acc
      = acc ++ (l.filter
          (fun t => ! ext.is_degenerate diagram t (subActive active t))).map
          (fun t => (t, build_geometry (subCellData ext diagram reflections active init_v t)))
  | [], acc => by simp
  | t :: l, acc => by
    rw [List.foldl_cons]
    by_cases hdeg : ext.is_degenerate diagram t (subActive active t)
    · rw [if_pos hdeg, get_fundamental_cells_foldl_eq ext diagram reflections active init_v l acc]
      simp [List.filter_cons, hdeg]
    · rw [if_neg hdeg, get_fundamental_cells_foldl_eq ext diagram reflections active init_v l _]
      simp [List.filter_cons, hdeg]

/-- Shared form of C1: the fundamental-cell table is exactly one built cell
per non-degenerate triple, in traversal order. -/
theorem get_fundamental_cells_eq (ext : ExternalHelpers) (diagram : List ℚ)
    (reflections : List (Vec → Vec)) (active : List Bool) (init_v : Vec) :
    get_fundamental_cells ext diagram reflections active init_v
      = ((combinations (List.range 4) 3).filter
          (fun t => ! ext.is_degenerate diagram t (subActive active t))).map
          (fun t => (t, build_geometry (subCellData ext diagram reflections active init_v t))) := by
  unfold get_fundamental_cells
  rw [get_fundamental_cells_foldl_eq]
  simp

/-! ## Claim C1: one fundamental cell per admissible triple -/

/-- A trivial instantiation of the external helpers: nothing degenerate,
empty traversals, identity geometry. -/
def trivialExt : ExternalHelpers :=
  { get_hyperbolic_honeycomb_mirrors := fun _ => []
    get_point_from_distance := fun _ _ => []
    is_degenerate := fun _ _ _ => false
    normalize := fun v => v
    project_poincare := fun v => v
    subgroup_words := fun _ _ => [] }

/-- C1 (counterexample): the 3-element subsets of the 4 generators visited
by `get_fundamental_cells` number 4 (`C(4,3)`), not 6 as §4.4 of the spec
asserts: with a degeneracy test that rejects nothing, exactly 4 cells are
built. -/
theorem fundamental_cells_count_cex :
    (combinations (List.range 4) 3).length = 4 ∧
      (get_fundamental_cells trivialExt [] [] [] []).length = 4 ∧
      (get_fundamental_cells trivialExt [] [] [] []).length ≠ 6 := by
  refine ⟨by decide, ?_, ?_⟩ <;>
    rw [get_fundamental_cells_eq] <;> decide

/-- C1 (amended): `get_fundamental_cells` builds exactly one Fundamental
Cell for every 3-element subset of the 4 generators (4 such subsets, i.e.
`C(4,3)`, not the 6 stated in spec §4.4) that passes the degeneracy check,
in subset-traversal order; a degenerate subset contributes nothing and no
error is raised (the function is total), so the remaining cells alone make
up the table. -/
theorem honeycomb_fundamental_cells_spec (ext : ExternalHelpers)
    (diagram : List ℚ) (reflections : List (Vec → Vec)) (active : List Bool)
    (init_v : Vec) :
    get_fundamental_cells ext diagram reflections active init_v
      = ((combinations (List.range 4) 3).filter
          (fun t => ! ext.is_degenerate diagram t (subActive active t))).map
          (fun t => (t, build_geometry (subCellData ext diagram reflections active init_v t)))
      ∧ (combinations (List.range 4) 3).length = 4 :=
  ⟨get_fundamental_cells_eq ext diagram reflections active init_v, by decide⟩

/-! ## Claim C5: input validation -/

/-- C5: construction fails with the `InvalidInputError`
(`ValueError("Invalid input dimension")`) exactly when the diagram does not
have 6 entries or the distances do not have 4; and in that case the failure
is independent of every external geometry/word-engine capability — no
geometry computation or file I/O is consulted.  For correct arities no such
error is raised. -/
theorem honeycomb_init_validation (ext : ExternalHelpers) (d dist : List ℚ) :
    (honeycomb_init ext d dist = Except.error "Invalid input dimension"
      ↔ (d.length ≠ 6 ∨ dist.length ≠ 4))
    ∧ ((d.length ≠ 6 ∨ dist.length ≠ 4) →
        ∀ ext' : ExternalHelpers,
          honeycomb_init ext' d dist = Except.error "Invalid input dimension") := by
  by_cases h : d.length ≠ 6 ∨ dist.length ≠ 4
  · exact ⟨⟨fun _ => h, fun _ => by simp [honeycomb_init, h]⟩,
      fun _ ext' => by simp [honeycomb_init, h]⟩
  · refine ⟨⟨fun herr => ?_, fun hh => absurd hh h⟩, fun hh => absurd hh h⟩
    simp [honeycomb_init, h] at herr

/-- Concrete instance of C5: empty diagram and distances are rejected. -/
theorem honeycomb_init_validation_witness :
    honeycomb_init trivialExt [] [] = Except.error "Invalid input dimension" :=
  (honeycomb_init_validation trivialExt [] []).2 (Or.inl (by norm_num)) trivialExt

/-! ## Claim C4: non-degenerate cells are non-trivial and well-formed -/

theorem activeIndices_ne_nil_of_any (a : List Bool) (h : a.any id = true) :
    activeIndices a ≠ [] := by
  obtain ⟨x, hx, hxt⟩ := List.any_eq_true.mp h
  obtain ⟨j, hj, hget⟩ := List.mem_iff_getElem.mp hx
  have hmem : j ∈ activeIndices a := by
    refine List.mem_filter.mpr ⟨List.mem_range.mpr hj, ?_⟩
    rw [List.getD_eq_getElem?_getD, List.getElem?_eq_getElem hj, Option.getD_some, hget]
    simpa using hxt
  exact List.ne_nil_of_mem hmem

/-- Shared cell-level soundness: a cell whose engine traversal is non-empty
and closed under appending an active generator (up to point equality, the
engine covering the whole finite scoped group), and which has at least one
active generator, has positive vertex and edge counts and every recorded
edge's endpoints among its vertices. -/
theorem cell_geometry_sound (C : CellData) (hw : C.words ≠ [])
    (ha : activeIndices C.active ≠ [])
    (hcl : ∀ w ∈ C.words, ∀ i ∈ activeIndices C.active,
      ∃ w' ∈ C.words,
        transform C.reflections (w ++ [i]) C.v0 = transform C.reflections w' C.v0) :
    0 < (get_vertices C).length ∧ 0 < (get_edges C).length ∧
      ∀ e ∈ get_edges C, e.1 ∈ get_vertices C ∧ e.2 ∈ get_vertices C := by
  refine ⟨get_vertices_pos C hw, get_edges_pos C hw ha, ?_⟩
  intro e he
  obtain ⟨i, hi, w, hww, hshape⟩ := get_edges_shape C e he
  obtain ⟨w', hw', heq⟩ := hcl w hww i hi
  constructor
  · rw [hshape]
    exact get_vertices_complete C w hww
  · rw [hshape]
    show transform C.reflections (w ++ [i]) C.v0 ∈ get_vertices C
    rw [heq]
    exact get_vertices_complete C w' hw'

/-- C4: every Fundamental Cell built for a triple that passes the degeneracy
check has, after `build_geometry`, strictly positive (and, being list
lengths, finite) vertex and edge counts, and both endpoints of every
recorded edge lie in the cell's vertex list.  The hypotheses are the
documented contracts of the external collaborators: the degeneracy test
rejects collapsed configurations (no active mirror), and the scoped
engine's full traversal of the finite 3-generator subgroup is non-empty
and closed under appending an active generator, up to point equality. -/
theorem nondegenerate_cells_positive (ext : ExternalHelpers) (diagram : List ℚ)
    (reflections : List (Vec → Vec)) (active : List Bool) (init_v : Vec)
    (hdeg : ∀ t a, ext.is_degenerate diagram t a = false → a.any id = true)
    (hwords : ∀ t ∈ combinations (List.range 4) 3, ext.subgroup_words diagram t ≠ [])
    (hcl : ∀ t ∈ combinations (List.range 4) 3,
      ∀ w ∈ ext.subgroup_words diagram t,
      ∀ i ∈ activeIndices (subActive active t),
        ∃ w' ∈ ext.subgroup_words diagram t,
          transform (subCellData ext diagram reflections active init_v t).reflections
              (w ++ [i]) init_v
            = transform (subCellData ext diagram reflections active init_v t).reflections
              w' init_v) :
    ∀ p ∈ get_fundamental_cells ext diagram reflections active init_v,
      0 < p.2.vertices_coords.length ∧ 0 < p.2.edge_coords.length ∧
        ∀ e ∈ p.2.edge_coords, e.1 ∈ p.2.vertices_coords ∧ e.2 ∈ p.2.vertices_coords := by
  intro p hp
  rw [get_fundamental_cells_eq] at hp
  obtain ⟨t, ht, hpt⟩ := List.mem_map.mp hp
  obtain ⟨htc, htd⟩ := List.mem_filter.mp ht
  subst hpt
  set C := subCellData ext diagram reflections active init_v t with hC
  have hCact : C.active = subActive active t := rfl
  have hCwords : C.words = ext.subgroup_words diagram t := rfl
  have hCv : C.v0 = init_v := rfl
  have hdeg' : ext.is_degenerate diagram t (subActive active t) = false := by
    simpa using htd
  have hany : (subActive active t).any id = true := hdeg t _ hdeg'
  have ha : activeIndices C.active ≠ [] := by
    rw [hCact]; exact activeIndices_ne_nil_of_any _ hany
  have hw : C.words ≠ [] := by rw [hCwords]; exact hwords t htc
  have hcl' : ∀ w ∈ C.words, ∀ i ∈ activeIndices C.active,
      ∃ w' ∈ C.words,
        transform C.reflections (w ++ [i]) C.v0 = transform C.reflections w' C.v0 := by
    rw [hCwords, hCact]
    exact hcl t htc
  exact cell_geometry_sound C hw ha hcl'

/-- External helpers for the concrete C4 instance: nothing with an active
mirror is degenerate, each scoped traversal yields the identity word and
one generator word, and all geometry maps are the identity. -/
def wExt : ExternalHelpers :=
  { get_hyperbolic_honeycomb_mirrors := fun _ => []
    get_point_from_distance := fun _ _ => []
    is_degenerate := fun _ _ a => ! a.any id
    normalize := fun v => v
    project_poincare := fun v => v
    subgroup_words := fun _ _ => [[], [0]] }

def wRefls : List (Vec → Vec) := [fun v => v, fun v => v, fun v => v, fun v => v]

def wActive : List Bool := [true, false, false, false]

def wCell : CellData := subCellData wExt [] wRefls wActive [1] [0, 1, 2]

theorem whcl : ∀ t ∈ combinations (List.range 4) 3,
    ∀ w ∈ wExt.subgroup_words [] t,
    ∀ i ∈ activeIndices (subActive wActive t),
      ∃ w' ∈ wExt.subgroup_words [] t,
        transform (subCellData wExt [] wRefls wActive [1] t).reflections (w ++ [i]) [1]
          = transform (subCellData wExt [] wRefls wActive [1] t).reflections w' [1] := by
  have hcomb : combinations (List.range 4) 3 = [[0,1,2],[0,1,3],[0,2,3],[1,2,3]] := by decide
  intro t ht w hw i hi
  rw [hcomb] at ht
  simp only [List.mem_cons, List.not_mem_nil, or_false] at ht
  have hww : w = [] ∨ w = [0] := by
    simpa [wExt, List.mem_cons] using hw
  rcases ht with h | h | h | h
  · have h0 : activeIndices (subActive wActive [0,1,2]) = [0] := by decide
    subst h; rw [h0] at hi
    have hi0 : i = 0 := List.mem_singleton.mp hi
    subst hi0
    rcases hww with h | h <;> subst h
    · exact ⟨[0], by simp [wExt], rfl⟩
    · exact ⟨[0], by simp [wExt], rfl⟩
  · have h0 : activeIndices (subActive wActive [0,1,3]) = [0] := by decide
    subst h; rw [h0] at hi
    have hi0 : i = 0 := List.mem_singleton.mp hi
    subst hi0
    rcases hww with h | h <;> subst h
    · exact ⟨[0], by simp [wExt], rfl⟩
    · exact ⟨[0], by simp [wExt], rfl⟩
  · have h0 : activeIndices (subActive wActive [0,2,3]) = [0] := by decide
    subst h; rw [h0] at hi
    have hi0 : i = 0 := List.mem_singleton.mp hi
    subst hi0
    rcases hww with h | h <;> subst h
    · exact ⟨[0], by simp [wExt], rfl⟩
    · exact ⟨[0], by simp [wExt], rfl⟩
  · have h0 : activeIndices (subActive wActive [1,2,3]) = [] := by decide
    subst h; rw [h0] at hi
    exact absurd hi (List.not_mem_nil i)

/-- Concrete instance of C4: the cell built for the triple (0, 1, 2) has
positive vertex and edge counts and its single edge's endpoints are
vertices. -/
theorem nondegenerate_cells_positive_witness :
    (([0, 1, 2], build_geometry wCell)
        ∈ get_fundamental_cells wExt [] wRefls wActive [1]) ∧
      0 < (build_geometry wCell).vertices_coords.length ∧
      0 < (build_geometry wCell).edge_coords.length ∧
      (([(1 : ℚ)], [(1 : ℚ)]) ∈ (build_geometry wCell).edge_coords) ∧
      ([(1 : ℚ)] ∈ (build_geometry wCell).vertices_coords) := by
  have hmemP : ([0, 1, 2], build_geometry wCell)
      ∈ get_fundamental_cells wExt [] wRefls wActive [1] := by
    rw [get_fundamental_cells_eq]
    exact List.mem_map.mpr ⟨[0, 1, 2], by decide, rfl⟩
  have hdeg : ∀ t a, wExt.is_degenerate [] t a = false → a.any id = true := by
    intro t a h
    simpa [wExt] using h
  have hwords : ∀ t ∈ combinations (List.range 4) 3,
      wExt.subgroup_words [] t ≠ [] := by
    intro t _
    simp [wExt]
  have h := nondegenerate_cells_positive wExt [] wRefls wActive [1]
    hdeg hwords whcl _ hmemP
  have hedge : (build_geometry wCell).edge_coords = [([(1 : ℚ)], [(1 : ℚ)])] := by
    show get_edges wCell = _
    unfold get_edges
    have ha : activeIndices wCell.active = [0] := by decide
    rw [ha]
    norm_num [wCell, subCellData, subActive, wExt, wRefls, get_edges_step, transform,
      transform_raw, centroidKey, vadd, vround, roundTo8, round_eq, List.getD,
      List.getElem?_cons_zero, Option.getD_some]
  have hmemE : (([(1 : ℚ)], [(1 : ℚ)]) ∈ (build_geometry wCell).edge_coords) := by
    rw [hedge]; exact List.mem_singleton.mpr rfl
  exact ⟨hmemP, h.1, h.2.1, hmemE, ((h.2.2 _ hmemE).1 : _)⟩

/-! ## Global expansion and export (source lines 163–227) -/

/-- The per-instance mutable state created once in `Honeycomb.__init__`
(source lines 121–124): the edge-midpoint registry `edge_hash_set` (here an
insertion-ordered duplicate-free list standing for the Python set) and the
running counters. -/
structure HState where
  edge_hash_set : List Vec
  num_vertices : ℕ
  num_edges : ℕ
deriving DecidableEq

/-- The state as the constructor leaves it. -/
def freshHState : HState :=
  { edge_hash_set := [], num_vertices := 0, num_edges := 0 }

/-- `Honeycomb.is_new_edge` (source lines 163–168): computes the canonical
midpoint, registers it if unseen, and reports whether it was new. -/
def is_new_edge (normalize : Vec → Vec) (h : HState) (e : Vec × Vec) :
    Bool × HState :=
  let mid := centroidKey normalize e.1 e.2
  if mid ∈ h.edge_hash_set then (false, h)
  else (true, { h with edge_hash_set := h.edge_hash_set ++ [mid] })

/-- One edge of `Honeycomb.collect_fundamental_cell_edges` (source lines
170–176): the registry is updated by `is_new_edge` either way; the edge is
appended to the result only when new. -/
def collect_step (normalize : Vec → Vec) (st : List (Vec × Vec) × HState)
    (e : Vec × Vec) : List (Vec × Vec) × HState :=
  let r := is_new_edge normalize st.2 e
  if r.1 then (st.1 ++ [e], r.2) else (st.1, r.2)

/-- `Honeycomb.collect_fundamental_cell_edges`. -/
def collect_fundamental_cell_edges (normalize : Vec → Vec)
    (cells : List CellResult) (h : HState) : List (Vec × Vec) × HState :=
  cells.foldl (fun st C => C.edge_coords.foldl (collect_step normalize) st) ([], h)

/-- The per-call state of `generate_povray_data`: the instance state plus
the local `vertices` set (insertion-ordered) and the `HyperbolicEdge`
records written so far, in emission order. -/
structure RunState where
  hstate : HState
  vertices : List Vec
  written : List (Vec × Vec)
deriving DecidableEq

/-- The `for v in [p1, p2]` body of `add_new_edge` (source lines 203–207). -/
def add_vertex (st : RunState) (p : Vec) : RunState :=
  let v := vround p
  if v ∈ st.vertices then st
  else { st with
          vertices := st.vertices ++ [v]
          hstate := { st.hstate with num_vertices := st.hstate.num_vertices + 1 } }

/-- The local `add_new_edge` of `generate_povray_data` (source lines
197–207): project both endpoints to the Poincaré ball, write the edge and
update the counters only if at least one projected endpoint passes the
visibility cull `np.dot(p - eye, viewdir) > 0.5`. -/
def add_new_edge (proj : Vec → Vec) (eye viewdir : Vec) (st : RunState)
    (e : Vec × Vec) : RunState :=
  let p1 := proj e.1
  let p2 := proj e.2
  if 1 / 2 < dot (vsub p1 eye) viewdir ∨ 1 / 2 < dot (vsub p2 eye) viewdir then
    add_vertex
      (add_vertex
        { st with
            written := st.written ++ [(p1, p2)]
            hstate := { st.hstate with num_edges := st.hstate.num_edges + 1 } }
        p1)
      p2
  else st

/-- One `(word, fundamental edge)` iteration of the expansion loop (source
lines 215–219): transform the edge, consult/extend the registry via
`is_new_edge`, and only then hand a new edge to `add_new_edge`. -/
def expansion_step (normalize proj : Vec → Vec) (eye viewdir : Vec)
    (refs : List (Vec → Vec)) (st : RunState) (we : List ℕ × (Vec × Vec)) :
    RunState :=
  let e := (transform refs we.1 we.2.1, transform refs we.1 we.2.2)
  let r := is_new_edge normalize st.hstate e
  let st' := { st with hstate := r.2 }
  if r.1 then add_new_edge proj eye viewdir st' e else st'

/-- What one call of `generate_povray_data` leaves behind: the header
metadata written at the end of the file, the streamed edge records, and
the instance state as the call leaves it. -/
structure RunOutput where
  header_num_vertices : ℕ
  vertices_array : List Vec
  written : List (Vec × Vec)
  state : HState
deriving DecidableEq

/-- `Honeycomb.generate_povray_data` (source lines 184–227), with the
bounded traversal `self.G.traverse(depth=depth, maxcount=maxcount)` of the
external engine entering as the word list `gwords`. -/
def generate_povray_data (H : HoneycombData) (gwords : List (List ℕ))
    (eye lookat : Vec) (h0 : HState) : RunOutput :=
  let viewdir := H.normalize (vsub lookat eye)
  let res := collect_fundamental_cell_edges H.normalize
    (H.fundamental_cells.map Prod.snd) h0
  let σ1 : RunState := { hstate := res.2, vertices := [], written := [] }
  let σ2 := res.1.foldl (add_new_edge H.project eye viewdir) σ1
  let σ3 := gwords.foldl
    (fun σ word => res.1.foldl
      (fun σ e =>
        expansion_step H.normalize H.project eye viewdir H.reflections σ (word, e)) σ)
    σ2
  { header_num_vertices := σ3.hstate.num_vertices
    vertices_array := σ3.vertices
    written := σ3.written
    state := σ3.hstate }

/-! ## Claim C3: the visibility cull decides emission -/

/-- C3: for every edge that reaches the emission step (`add_new_edge`,
i.e. it was new by canonical midpoint), the edge is written to the output
iff at least one of its two projected endpoints `p` satisfies
`dot(p - eye, viewdir) > 0.5`; when both projected endpoints are at or
below the threshold nothing is written.  (`generate_povray_data` calls
this with `proj = helpers.project_poincare` and
`viewdir = helpers.normalize(lookat - eye)`.) -/
theorem emission_cull_iff (proj : Vec → Vec) (eye viewdir : Vec)
    (st : RunState) (e : Vec × Vec) :
    ((add_new_edge proj eye viewdir st e).written
        = st.written ++ [(proj e.1, proj e.2)]
      ↔ (1 / 2 < dot (vsub (proj e.1) eye) viewdir
          ∨ 1 / 2 < dot (vsub (proj e.2) eye) viewdir))
    ∧ (¬ (1 / 2 < dot (vsub (proj e.1) eye) viewdir
          ∨ 1 / 2 < dot (vsub (proj e.2) eye) viewdir) →
        (add_new_edge proj eye viewdir st e).written = st.written) := by
  by_cases hc : 1 / 2 < dot (vsub (proj e.1) eye) viewdir
      ∨ 1 / 2 < dot (vsub (proj e.2) eye) viewdir
  · refine ⟨⟨fun _ => hc, fun _ => ?_⟩, fun hn => absurd hc hn⟩
    simp only [add_new_edge, if_pos hc, add_vertex]
    split <;> split <;> rfl
  · refine ⟨⟨fun heq => ?_, fun h => absurd h hc⟩, fun _ => ?_⟩
    · rw [add_new_edge, if_neg hc] at heq
      have := congrArg List.length heq
      simp at this
    · rw [add_new_edge, if_neg hc]

/-- Concrete instance of C3: with identity projection, eye at the origin
and view direction (1), the edge ((0), (0)) has both projected endpoints at
dot 0 ≤ 0.5, so nothing is written. -/
theorem emission_cull_iff_witness :
    ¬ (1 / 2 < dot (vsub ([(0 : ℚ)] : Vec) [(0 : ℚ)]) [(1 : ℚ)]
        ∨ 1 / 2 < dot (vsub ([(0 : ℚ)] : Vec) [(0 : ℚ)]) [(1 : ℚ)]) ∧
      (add_new_edge (fun v => v) [(0 : ℚ)] [(1 : ℚ)]
          { hstate := freshHState, vertices := [], written := [] }
          ([(0 : ℚ)], [(0 : ℚ)])).written
        = ({ hstate := freshHState, vertices := [], written := [] } : RunState).written := by
  have hn : ¬ (1 / 2 < dot (vsub ([(0 : ℚ)] : Vec) [(0 : ℚ)]) [(1 : ℚ)]
      ∨ 1 / 2 < dot (vsub ([(0 : ℚ)] : Vec) [(0 : ℚ)]) [(1 : ℚ)]) := by
    norm_num [dot, vsub]
  exact ⟨hn,
    (emission_cull_iff (fun v => v) [(0 : ℚ)] [(1 : ℚ)]
      { hstate := freshHState, vertices := [], written := [] }
      ([(0 : ℚ)], [(0 : ℚ)])).2 hn⟩

/-! ## Registry lemmas shared by the run-level claims -/

theorem foldl_preserve {σ β : Type} (P : σ → Prop) (f : σ → β → σ)
    (hf : ∀ s b, P s → P (f s b)) :
    ∀ (l : List β) (s : σ), P s → P (l.foldl f s)
  | [], _, hs => hs
  | b :: l, s, hs => foldl_preserve P f hf l (f s b) (hf s b hs)

theorem foldl_id {σ β : Type} : ∀ (l : List β) (s : σ),
    l.foldl (fun s _ => s) s = s
  | [], _ => rfl
  | _ :: l, s => foldl_id l s

theorem add_vertex_hash (st : RunState) (p : Vec) :
    (add_vertex st p).hstate.edge_hash_set = st.hstate.edge_hash_set := by
  by_cases h : vround p ∈ st.vertices <;> simp [add_vertex, h]

theorem add_vertex_num_edges (st : RunState) (p : Vec) :
    (add_vertex st p).hstate.num_edges = st.hstate.num_edges := by
  by_cases h : vround p ∈ st.vertices <;> simp [add_vertex, h]

theorem add_new_edge_hash (proj : Vec → Vec) (eye viewdir : Vec)
    (st : RunState) (e : Vec × Vec) :
    (add_new_edge proj eye viewdir st e).hstate.edge_hash_set
      = st.hstate.edge_hash_set := by
  simp only [add_new_edge]
  by_cases hc : 1 / 2 < dot (vsub (proj e.1) eye) viewdir
      ∨ 1 / 2 < dot (vsub (proj e.2) eye) viewdir
  · rw [if_pos hc, add_vertex_hash, add_vertex_hash]
  · rw [if_neg hc]

theorem add_new_edge_num_edges_le (proj : Vec → Vec) (eye viewdir : Vec)
    (st : RunState) (e : Vec × Vec) :
    (add_new_edge proj eye viewdir st e).hstate.num_edges
      ≤ st.hstate.num_edges + 1 := by
  simp only [add_new_edge]
  by_cases hc : 1 / 2 < dot (vsub (proj e.1) eye) viewdir
      ∨ 1 / 2 < dot (vsub (proj e.2) eye) viewdir
  · rw [if_pos hc, add_vertex_num_edges, add_vertex_num_edges]
  · rw [if_neg hc]
    exact Nat.le_succ _

theorem is_new_edge_registers (normalize : Vec → Vec) (h : HState)
    (e : Vec × Vec) :
    centroidKey normalize e.1 e.2 ∈ (is_new_edge normalize h e).2.edge_hash_set := by
  unfold is_new_edge
  by_cases hm : centroidKey normalize e.1 e.2 ∈ h.edge_hash_set
  · simp [hm]
  · simp [hm]

theorem is_new_edge_mono (normalize : Vec → Vec) (h : HState) (e : Vec × Vec)
    (x : Vec) (hx : x ∈ h.edge_hash_set) :
    x ∈ (is_new_edge normalize h e).2.edge_hash_set := by
  unfold is_new_edge
  by_cases hm : centroidKey normalize e.1 e.2 ∈ h.edge_hash_set <;>
    simp [hm, hx]

theorem is_new_edge_false_of_mem (normalize : Vec → Vec) (h : HState)
    (e : Vec × Vec) (hm : centroidKey normalize e.1 e.2 ∈ h.edge_hash_set) :
    is_new_edge normalize h e = (false, h) := by
  unfold is_new_edge
  simp [hm]

theorem collect_step_mono (normalize : Vec → Vec)
    (st : List (Vec × Vec) × HState) (e : Vec × Vec) (x : Vec)
    (hx : x ∈ st.2.edge_hash_set) :
    x ∈ (collect_step normalize st e).2.edge_hash_set := by
  simp only [collect_step]
  split <;> exact is_new_edge_mono normalize st.2 e x hx

theorem collect_step_registers (normalize : Vec → Vec)
    (st : List (Vec × Vec) × HState) (e : Vec × Vec) :
    centroidKey normalize e.1 e.2 ∈ (collect_step normalize st e).2.edge_hash_set := by
  simp only [collect_step]
  split <;> exact is_new_edge_registers normalize st.2 e

theorem collect_inner_registers (normalize : Vec → Vec) :
    ∀ (edges : List (Vec × Vec)) (st : List (Vec × Vec) × HState),
      ∀ e ∈ edges, centroidKey normalize e.1 e.2
        ∈ (edges.foldl (collect_step normalize) st).2.edge_hash_set
  | [], _, _, he => by simp at he
  | e' :: edges, st, e, he => by
    rcases List.mem_cons.mp he with h | h
    · subst h
      rw [List.foldl_cons]
      exact foldl_preserve (fun st => centroidKey normalize e.1 e.2 ∈ st.2.edge_hash_set)
        (collect_step normalize)
        (fun s b hs => collect_step_mono normalize s b _ hs) edges _
        (collect_step_registers normalize st e)
    · exact collect_inner_registers normalize edges _ e h

/-- After `collect_fundamental_cell_edges`, the midpoint of every edge of
every fundamental cell is in the registry. -/
theorem collect_registers (normalize : Vec → Vec) :
    ∀ (cells : List CellResult) (st : List (Vec × Vec) × HState),
      ∀ C ∈ cells, ∀ e ∈ C.edge_coords,
        centroidKey normalize e.1 e.2
          ∈ (cells.foldl
              (fun st C => C.edge_coords.foldl (collect_step normalize) st)
              st).2.edge_hash_set
  | [], _, _, hC, _, _ => by simp at hC
  | C' :: cells, st, C, hC, e, he => by
    rcases List.mem_cons.mp hC with h | h
    · subst h
      rw [List.foldl_cons]
      exact foldl_preserve (fun st => centroidKey normalize e.1 e.2 ∈ st.2.edge_hash_set)
        _
        (fun s b hs =>
          foldl_preserve (fun st => centroidKey normalize e.1 e.2 ∈ st.2.edge_hash_set)
            (collect_step normalize)
            (fun s' b' hs' => collect_step_mono normalize s' b' _ hs') _ s hs)
        cells _
        (collect_inner_registers normalize C.edge_coords st e he)
    · exact collect_registers normalize cells _ C h e he

theorem collect_inner_fixed (normalize : Vec → Vec) :
    ∀ (edges : List (Vec × Vec)) (st : List (Vec × Vec) × HState),
      (∀ e ∈ edges, centroidKey normalize e.1 e.2 ∈ st.2.edge_hash_set) →
      edges.foldl (collect_step normalize) st = st
  | [], _, _ => rfl
  | e :: edges, st, h => by
    have hst : collect_step normalize st e = st := by
      simp [collect_step,
        is_new_edge_false_of_mem normalize st.2 e (h e (List.mem_cons_self _ _))]
    rw [List.foldl_cons, hst]
    exact collect_inner_fixed normalize edges st
      (fun e' he' => h e' (List.mem_cons_of_mem _ he'))

/-- If every fundamental edge's midpoint is already registered, collection
returns the empty list and leaves the state untouched. -/
theorem collect_fixed (normalize : Vec → Vec) :
    ∀ (cells : List CellResult) (h : HState),
      (∀ C ∈ cells, ∀ e ∈ C.edge_coords,
        centroidKey normalize e.1 e.2 ∈ h.edge_hash_set) →
      collect_fundamental_cell_edges normalize cells h = ([], h) := by
  have main : ∀ (cells : List CellResult) (st : List (Vec × Vec) × HState),
      (∀ C ∈ cells, ∀ e ∈ C.edge_coords,
        centroidKey normalize e.1 e.2 ∈ st.2.edge_hash_set) →
      cells.foldl (fun st C => C.edge_coords.foldl (collect_step normalize) st) st
        = st := by
    intro cells
    induction cells with
    | nil => intro st _; rfl
    | cons C cells ih =>
      intro st h
      rw [List.foldl_cons,
        collect_inner_fixed normalize C.edge_coords st
          (h C (List.mem_cons_self _ _))]
      exact ih st (fun C' hC' e he => h C' (List.mem_cons_of_mem _ hC') e he)
  intro cells h hall
  exact main cells ([], h) hall

theorem seed_fold_hash (proj : Vec → Vec) (eye viewdir : Vec) :
    ∀ (l : List (Vec × Vec)) (σ : RunState),
      (l.foldl (add_new_edge proj eye viewdir) σ).hstate.edge_hash_set
        = σ.hstate.edge_hash_set
  | [], _ => rfl
  | e :: l, σ => by
    rw [List.foldl_cons, seed_fold_hash proj eye viewdir l _, add_new_edge_hash]

theorem expansion_step_mono (normalize proj : Vec → Vec) (eye viewdir : Vec)
    (refs : List (Vec → Vec)) (st : RunState) (we : List ℕ × (Vec × Vec))
    (x : Vec) (hx : x ∈ st.hstate.edge_hash_set) :
    x ∈ (expansion_step normalize proj eye viewdir refs st we).hstate.edge_hash_set := by
  simp only [expansion_step]
  split
  · rw [add_new_edge_hash]
    exact is_new_edge_mono normalize st.hstate _ x hx
  · exact is_new_edge_mono normalize st.hstate _ x hx

theorem collect_call_registers (normalize : Vec → Vec) (cells : List CellResult)
    (h : HState) :
    ∀ C ∈ cells, ∀ e ∈ C.edge_coords,
      centroidKey normalize e.1 e.2
        ∈ (collect_fundamental_cell_edges normalize cells h).2.edge_hash_set :=
  fun C hC e he => collect_registers normalize cells ([], h) C hC e he

/-- The registry after a full `generate_povray_data` call contains the
midpoint of every fundamental-cell edge. -/
theorem generate_registers (H : HoneycombData) (gwords : List (List ℕ))
    (eye lookat : Vec) (h0 : HState) :
    ∀ C ∈ H.fundamental_cells.map Prod.snd, ∀ e ∈ C.edge_coords,
      centroidKey H.normalize e.1 e.2
        ∈ (generate_povray_data H gwords eye lookat h0).state.edge_hash_set := by
  intro C hC e he
  have h1 := collect_call_registers H.normalize (H.fundamental_cells.map Prod.snd)
    h0 C hC e he
  simp only [generate_povray_data]
  refine foldl_preserve
    (fun σ : RunState => centroidKey H.normalize e.1 e.2 ∈ σ.hstate.edge_hash_set)
    _ ?_ gwords _ ?_
  · intro s b hs
    exact foldl_preserve
      (fun σ : RunState => centroidKey H.normalize e.1 e.2 ∈ σ.hstate.edge_hash_set)
      _ (fun s' b' hs' => expansion_step_mono _ _ _ _ _ s' _ _ hs') _ s hs
  · dsimp only
    rw [seed_fold_hash]
    exact h1

/-- On a state whose fundamental edges are all already registered (so the
collection comes back empty), a call writes nothing, leaves the state
untouched, and its header repeats the state's `num_vertices`. -/
theorem generate_of_collect_nil (H : HoneycombData) (gwords : List (List ℕ))
    (eye lookat : Vec) (h : HState)
    (hc : collect_fundamental_cell_edges H.normalize
      (H.fundamental_cells.map Prod.snd) h = ([], h)) :
    generate_povray_data H gwords eye lookat h
      = { header_num_vertices := h.num_vertices
          vertices_array := []
          written := []
          state := h } := by
  simp only [generate_povray_data, hc, List.foldl_nil]
  rw [foldl_id]

/-- C9: the edge registry and the counters are instance state, never reset
by `generate_povray_data`; hence on a second call on the same instance the
fundamental-edge collection comes back empty, no `HyperbolicEdge` record is
written, the per-call vertex array written at the end is empty, and yet the
header's `num_vertices` is the count carried over from the first call (the
instance state is unchanged by the second call). -/
theorem second_call_emits_nothing (H : HoneycombData)
    (gw1 gw2 : List (List ℕ)) (eye1 lookat1 eye2 lookat2 : Vec) :
    collect_fundamental_cell_edges H.normalize (H.fundamental_cells.map Prod.snd)
        (generate_povray_data H gw1 eye1 lookat1 freshHState).state
      = ([], (generate_povray_data H gw1 eye1 lookat1 freshHState).state)
    ∧ (generate_povray_data H gw2 eye2 lookat2
        (generate_povray_data H gw1 eye1 lookat1 freshHState).state).written = []
    ∧ (generate_povray_data H gw2 eye2 lookat2
        (generate_povray_data H gw1 eye1 lookat1 freshHState).state).vertices_array = []
    ∧ (generate_povray_data H gw2 eye2 lookat2
        (generate_povray_data H gw1 eye1 lookat1 freshHState).state).header_num_vertices
      = (generate_povray_data H gw1 eye1 lookat1 freshHState).state.num_vertices
    ∧ (generate_povray_data H gw2 eye2 lookat2
        (generate_povray_data H gw1 eye1 lookat1 freshHState).state).state
      = (generate_povray_data H gw1 eye1 lookat1 freshHState).state := by
  have hcoll : collect_fundamental_cell_edges H.normalize
      (H.fundamental_cells.map Prod.snd)
      (generate_povray_data H gw1 eye1 lookat1 freshHState).state
      = ([], (generate_povray_data H gw1 eye1 lookat1 freshHState).state) :=
    collect_fixed H.normalize _ _
      (generate_registers H gw1 eye1 lookat1 freshHState)
  have h2 := generate_of_collect_nil H gw2 eye2 lookat2
    (generate_povray_data H gw1 eye1 lookat1 freshHState).state hcoll
  exact ⟨hcoll, by rw [h2], by rw [h2], by rw [h2], by rw [h2]⟩

/-! ## Claim C6: the cubic-honeycomb configuration, depth-0 expansion -/

theorem foldl_fixed_of_mem {σ β : Type} (f : σ → β → σ) (s : σ) :
    ∀ l : List β, (∀ b ∈ l, f s b = s) → l.foldl f s = s
  | [], _ => rfl
  | b :: l, h => by
    rw [List.foldl_cons, h b (List.mem_cons_self _ _)]
    exact foldl_fixed_of_mem f s l (fun b' hb' => h b' (List.mem_cons_of_mem _ hb'))

theorem collect_inner_from (normalize : Vec → Vec) :
    ∀ (edges : List (Vec × Vec)) (st : List (Vec × Vec) × HState),
      ∀ e ∈ (edges.foldl (collect_step normalize) st).1, e ∈ st.1 ∨ e ∈ edges
  | [], _, e, he => Or.inl he
  | e' :: edges, st, e, he => by
    rw [List.foldl_cons] at he
    rcases collect_inner_from normalize edges _ e he with h | h
    · simp only [collect_step] at h
      split at h
      · rcases List.mem_append.mp h with h' | h'
        · exact Or.inl h'
        · exact Or.inr (List.mem_cons.mpr (Or.inl (List.mem_singleton.mp h')))
      · exact Or.inl h
    · exact Or.inr (List.mem_cons_of_mem _ h)

theorem collect_from_cells_aux (normalize : Vec → Vec) :
    ∀ (cells : List CellResult) (st : List (Vec × Vec) × HState),
      ∀ e ∈ (cells.foldl
          (fun st C => C.edge_coords.foldl (collect_step normalize) st) st).1,
        e ∈ st.1 ∨ ∃ C ∈ cells, e ∈ C.edge_coords
  | [], _, _, he => Or.inl he
  | C :: cells, st, e, he => by
    rw [List.foldl_cons] at he
    rcases collect_from_cells_aux normalize cells _ e he with h | h
    · rcases collect_inner_from normalize C.edge_coords st e h with h' | h'
      · exact Or.inl h'
      · exact Or.inr ⟨C, List.mem_cons_self _ _, h'⟩
    · obtain ⟨C', hC', he'⟩ := h
      exact Or.inr ⟨C', List.mem_cons_of_mem _ hC', he'⟩

/-- Every collected fundamental edge belongs to some fundamental cell. -/
theorem collect_from_cells (normalize : Vec → Vec) (cells : List CellResult)
    (h : HState) :
    ∀ e ∈ (collect_fundamental_cell_edges normalize cells h).1,
      ∃ C ∈ cells, e ∈ C.edge_coords := by
  intro e he
  rcases collect_from_cells_aux normalize cells ([], h) e he with h' | h'
  · simp at h'
  · exact h'

/-- With every fundamental-cell edge already `vround`-fixed, expanding by
the identity word alone adds nothing: the run equals the run with no
expansion words at all. -/
theorem generate_identity_word_fixed (H : HoneycombData) (eye lookat : Vec)
    (h0 : HState)
    (hfix : ∀ C ∈ H.fundamental_cells.map Prod.snd, ∀ e ∈ C.edge_coords,
      vround e.1 = e.1 ∧ vround e.2 = e.2) :
    generate_povray_data H [[]] eye lookat h0
      = generate_povray_data H [] eye lookat h0 := by
  have hkeys : ∀ e ∈ (collect_fundamental_cell_edges H.normalize
      (H.fundamental_cells.map Prod.snd) h0).1,
      centroidKey H.normalize e.1 e.2
        ∈ (collect_fundamental_cell_edges H.normalize
            (H.fundamental_cells.map Prod.snd) h0).2.edge_hash_set := by
    intro e he
    obtain ⟨C, hC, heC⟩ := collect_from_cells H.normalize _ h0 e he
    exact collect_call_registers H.normalize _ h0 C hC e heC
  have hfrom := collect_from_cells H.normalize
    (H.fundamental_cells.map Prod.snd) h0
  simp only [generate_povray_data, List.foldl_cons, List.foldl_nil]
  generalize hres : collect_fundamental_cell_edges H.normalize
    (H.fundamental_cells.map Prod.snd) h0 = res
  rw [hres] at hkeys hfrom
  have hsteps : ∀ e ∈ res.1,
      expansion_step H.normalize H.project eye (H.normalize (vsub lookat eye))
        H.reflections
        (res.1.foldl (add_new_edge H.project eye (H.normalize (vsub lookat eye)))
          { hstate := res.2, vertices := [], written := [] })
        ([], e)
      = res.1.foldl (add_new_edge H.project eye (H.normalize (vsub lookat eye)))
          { hstate := res.2, vertices := [], written := [] } := by
    intro e he
    obtain ⟨C, hC, heC⟩ := hfrom e he
    obtain ⟨hfix1, hfix2⟩ := hfix C hC e heC
    have he' : (transform H.reflections [] e.1, transform H.reflections [] e.2)
        = e := by
      show (vround e.1, vround e.2) = e
      rw [hfix1, hfix2]
    have hhash : (res.1.foldl
        (add_new_edge H.project eye (H.normalize (vsub lookat eye)))
        { hstate := res.2, vertices := [], written := [] }).hstate.edge_hash_set
        = res.2.edge_hash_set := by
      rw [seed_fold_hash]
    simp only [expansion_step, he']
    rw [is_new_edge_false_of_mem _ _ _ (by rw [hhash]; exact hkeys e he)]
    simp
  rw [foldl_fixed_of_mem _ _ _ hsteps]

theorem fundamental_cells_edges_fixed (ext : ExternalHelpers) (diagram : List ℚ)
    (reflections : List (Vec → Vec)) (active : List Bool) (init_v : Vec) :
    ∀ C ∈ (get_fundamental_cells ext diagram reflections active init_v).map Prod.snd,
      ∀ e ∈ C.edge_coords, vround e.1 = e.1 ∧ vround e.2 = e.2 := by
  intro C hC e he
  rw [get_fundamental_cells_eq] at hC
  rw [List.map_map] at hC
  obtain ⟨t, ht, htc⟩ := List.mem_map.mp hC
  have hCe : C = build_geometry (subCellData ext diagram reflections active init_v t) := htc.symm
  subst hCe
  obtain ⟨i, hi, w, hw, hshape⟩ := get_edges_shape _ e he
  rw [hshape]
  exact ⟨vround_idem _, vround_idem _⟩

example : (([1, 0, 0, 0] : List ℚ).map (fun x => decide (x ≠ 0))) = [true, false, false, false] := by
  norm_num

theorem cubic_depth_zero (ext : ExternalHelpers) (H : HoneycombData)
    (gwords : List (List ℕ)) (eye lookat : Vec)
    (hH : honeycomb_init ext [4, 3, 3, 2, 2, 2] [1, 0, 0, 0] = Except.ok H)
    (hdeg012 : ext.is_degenerate [4, 3, 3, 2, 2, 2] [0, 1, 2] [true, false, false] = false)
    (hw012 : ext.subgroup_words [4, 3, 3, 2, 2, 2] [0, 1, 2] ≠ [])
    (hdepth0 : gwords = [[]]) :
    (∃ p ∈ H.fundamental_cells, p.1 = [0, 1, 2]
        ∧ 0 < p.2.vertices_coords.length ∧ 0 < p.2.edge_coords.length)
    ∧ generate_povray_data H gwords eye lookat freshHState
        = generate_povray_data H [] eye lookat freshHState := by
  simp only [honeycomb_init, List.length_cons, List.length_nil] at hH
  norm_num at hH
  have hsub : subActive [true, false, false, false] [0, 1, 2]
      = [true, false, false] := by decide
  constructor
  · refine ⟨([0, 1, 2],
      build_geometry (subCellData ext [4, 3, 3, 2, 2, 2]
        ((ext.get_hyperbolic_honeycomb_mirrors [4, 3, 3, 2, 2, 2]).map (fun n => reflect n))
        [true, false, false, false]
        (ext.get_point_from_distance (ext.get_hyperbolic_honeycomb_mirrors [4, 3, 3, 2, 2, 2]) [1, 0, 0, 0])
        [0, 1, 2])), ?_, rfl, ?_, ?_⟩
    · rw [← hH]
      show _ ∈ get_fundamental_cells ext [4, 3, 3, 2, 2, 2] _ _ _
      rw [get_fundamental_cells_eq]
      refine List.mem_map.mpr ⟨[0, 1, 2], List.mem_filter.mpr ⟨by decide, ?_⟩, rfl⟩
      rw [hsub, hdeg012]
      rfl
    · exact get_vertices_pos _ hw012
    · refine get_edges_pos _ hw012 ?_
      show activeIndices (subActive _ [0, 1, 2]) ≠ []
      rw [hsub]
      decide
  · rw [hdepth0]
    refine generate_identity_word_fixed H eye lookat freshHState ?_
    rw [← hH]
    exact fundamental_cells_edges_fixed ext _ _ _ _

def wHoneycomb : HoneycombData :=
  { diagram := [4, 3, 3, 2, 2, 2]
    active := [true, false, false, false]
    mirrors := []
    reflections := []
    init_v := []
    fundamental_cells :=
      get_fundamental_cells wExt [4, 3, 3, 2, 2, 2] [] [true, false, false, false] []
    normalize := fun v => v
    project := fun v => v }

theorem wHoneycomb_init :
    honeycomb_init wExt [4, 3, 3, 2, 2, 2] [1, 0, 0, 0] = Except.ok wHoneycomb := by
  simp only [honeycomb_init, List.length_cons, List.length_nil]
  norm_num [wHoneycomb, wExt]

theorem cubic_depth_zero_witness :
    (∃ p ∈ wHoneycomb.fundamental_cells, p.1 = [0, 1, 2]
        ∧ 0 < p.2.vertices_coords.length ∧ 0 < p.2.edge_coords.length)
    ∧ generate_povray_data wHoneycomb [[]] [] [] freshHState
        = generate_povray_data wHoneycomb [] [] [] freshHState :=
  cubic_depth_zero wExt wHoneycomb [[]] [] [] wHoneycomb_init
    (by decide) (by simp [wExt]) rfl

/-! ## Claim C7: determinism of the emitted output -/

/-- C7: two runs on freshly constructed Honeycomb instances with identical
configuration (diagram, distances, traversal word list, eye, lookat)
produce identical emitted edge counts — indeed identical output records.
The external engine's traversal enters the model as a function of the
configuration, which is exactly the claim's assumption that the engine's
traversal is deterministic for fixed bounds. -/
theorem generate_deterministic (ext : ExternalHelpers) (d dist : List ℚ)
    (H1 H2 : HoneycombData)
    (h1 : honeycomb_init ext d dist = Except.ok H1)
    (h2 : honeycomb_init ext d dist = Except.ok H2)
    (gwords : List (List ℕ)) (eye lookat : Vec) :
    (generate_povray_data H1 gwords eye lookat freshHState).state.num_edges
      = (generate_povray_data H2 gwords eye lookat freshHState).state.num_edges
    ∧ generate_povray_data H1 gwords eye lookat freshHState
      = generate_povray_data H2 gwords eye lookat freshHState := by
  have hEq : H1 = H2 := by
    have := h1.symm.trans h2
    exact Except.ok.inj this
  subst hEq
  exact ⟨rfl, rfl⟩

/-- Concrete instance of C7 at the cubic-honeycomb configuration. -/
theorem generate_deterministic_witness :
    (generate_povray_data wHoneycomb [[]] [] [] freshHState).state.num_edges
      = (generate_povray_data wHoneycomb [[]] [] [] freshHState).state.num_edges :=
  (generate_deterministic wExt [4, 3, 3, 2, 2, 2] [1, 0, 0, 0] wHoneycomb wHoneycomb
    wHoneycomb_init wHoneycomb_init [[]] [] []).1

/-! ## Claim C10: registry discipline of the expansion loop -/

theorem scanl_head {σ β : Type} (f : σ → β → σ) (l : List β) (s : σ) :
    (l.scanl f s).head? = some s := by
  cases l <;> rfl

theorem scanl_ne_nil {σ β : Type} (f : σ → β → σ) (l : List β) (s : σ) :
    l.scanl f s ≠ [] := by
  cases l <;> simp [List.scanl_nil, List.scanl_cons]

theorem scanl_getLast {σ β : Type} (f : σ → β → σ) :
    ∀ (l : List β) (s : σ), (l.scanl f s).getLast? = some (l.foldl f s)
  | [], _ => rfl
  | b :: l, s => by
    rw [List.scanl_cons, List.foldl_cons,
      List.getLast?_append_of_ne_nil _ (scanl_ne_nil f l (f s b))]
    exact scanl_getLast f l (f s b)

theorem scanl_all {σ β : Type} (P : σ → Prop) (f : σ → β → σ)
    (hf : ∀ s b, P s → P (f s b)) :
    ∀ (l : List β) (s : σ), P s → ∀ x ∈ l.scanl f s, P x
  | [], s, hs, x, hx => by
    rw [List.scanl_nil, List.mem_singleton] at hx
    exact hx ▸ hs
  | b :: l, s, hs, x, hx => by
    rw [List.scanl_cons] at hx
    rcases List.mem_append.mp hx with h | h
    · rw [List.mem_singleton] at h
      exact h ▸ hs
    · exact scanl_all P f hf l (f s b) (hf s b hs) x h

theorem chain'_scanl {σ β : Type} (R : σ → σ → Prop) (f : σ → β → σ)
    (hf : ∀ s b, R s (f s b)) :
    ∀ (l : List β) (s : σ), List.Chain' R (l.scanl f s)
  | [], s => by simp [List.scanl_nil]
  | b :: l, s => by
    rw [List.scanl_cons, List.singleton_append]
    refine List.chain'_cons'.mpr ⟨?_, chain'_scanl R f hf l (f s b)⟩
    intro y hy
    rw [scanl_head] at hy
    cases hy
    exact hf s b

theorem collect_eq_flatten (normalize : Vec → Vec) :
    ∀ (cells : List CellResult) (st : List (Vec × Vec) × HState),
      cells.foldl (fun st C => C.edge_coords.foldl (collect_step normalize) st) st
        = ((cells.map CellResult.edge_coords).flatten).foldl (collect_step normalize) st
  | [], _ => rfl
  | C :: cells, st => by
    rw [List.foldl_cons, List.map_cons, List.flatten_cons, List.foldl_append]
    exact collect_eq_flatten normalize cells _

theorem expansion_eq_flatten (normalize proj : Vec → Vec) (eye viewdir : Vec)
    (refs : List (Vec → Vec)) :
    ∀ (gwords : List (List ℕ)) (l : List (Vec × Vec)) (σ : RunState),
      gwords.foldl (fun σ word => l.foldl
        (fun σ e => expansion_step normalize proj eye viewdir refs σ (word, e)) σ) σ
      = (gwords.flatMap (fun w => l.map (fun e => (w, e)))).foldl
          (expansion_step normalize proj eye viewdir refs) σ
  | [], _, _ => rfl
  | w :: gwords, l, σ => by
    rw [List.foldl_cons, List.flatMap_cons, List.foldl_append, List.foldl_map]
    exact expansion_eq_flatten normalize proj eye viewdir refs gwords l _

theorem collect_step_inv (normalize : Vec → Vec)
    (st : List (Vec × Vec) × HState) (e : Vec × Vec)
    (h : st.2.num_edges + st.1.length ≤ st.2.edge_hash_set.length) :
    (collect_step normalize st e).2.num_edges
        + (collect_step normalize st e).1.length
      ≤ (collect_step normalize st e).2.edge_hash_set.length := by
  simp only [collect_step, is_new_edge]
  by_cases hm : centroidKey normalize e.1 e.2 ∈ st.2.edge_hash_set
  · simpa [hm] using h
  · simp [hm, List.length_append]
    omega

theorem seed_foldl_num (proj : Vec → Vec) (eye viewdir : Vec) :
    ∀ (l : List (Vec × Vec)) (σ : RunState),
      (l.foldl (add_new_edge proj eye viewdir) σ).hstate.num_edges
        ≤ σ.hstate.num_edges + l.length
  | [], σ => by simp
  | e :: l, σ => by
    rw [List.foldl_cons]
    have h1 := seed_foldl_num proj eye viewdir l (add_new_edge proj eye viewdir σ e)
    have h2 := add_new_edge_num_edges_le proj eye viewdir σ e
    simp only [List.length_cons]
    omega

theorem seed_scanl_inv (proj : Vec → Vec) (eye viewdir : Vec) :
    ∀ (l : List (Vec × Vec)) (σ : RunState),
      σ.hstate.num_edges + l.length ≤ σ.hstate.edge_hash_set.length →
      ∀ x ∈ l.scanl (add_new_edge proj eye viewdir) σ,
        x.hstate.num_edges ≤ x.hstate.edge_hash_set.length
  | [], σ, hle, x, hx => by
    rw [List.scanl_nil, List.mem_singleton] at hx
    subst hx
    omega
  | e :: l, σ, hle, x, hx => by
    rw [List.scanl_cons] at hx
    rcases List.mem_append.mp hx with h | h
    · rw [List.mem_singleton] at h
      subst h
      simp only [List.length_cons] at hle
      omega
    · refine seed_scanl_inv proj eye viewdir l (add_new_edge proj eye viewdir σ e) ?_ x h
      have h1 := add_new_edge_num_edges_le proj eye viewdir σ e
      have h2 := add_new_edge_hash proj eye viewdir σ e
      rw [h2]
      simp only [List.length_cons] at hle
      omega

theorem expansion_step_inv (normalize proj : Vec → Vec) (eye viewdir : Vec)
    (refs : List (Vec → Vec)) (st : RunState) (we : List ℕ × (Vec × Vec))
    (h : st.hstate.num_edges ≤ st.hstate.edge_hash_set.length) :
    (expansion_step normalize proj eye viewdir refs st we).hstate.num_edges
      ≤ (expansion_step normalize proj eye viewdir refs st we).hstate.edge_hash_set.length := by
  simp only [expansion_step]
  by_cases hm : centroidKey normalize (transform refs we.1 we.2.1)
      (transform refs we.1 we.2.2) ∈ st.hstate.edge_hash_set
  · rw [is_new_edge_false_of_mem _ _ _ hm]
    simpa using h
  · have hr : is_new_edge normalize st.hstate
        (transform refs we.1 we.2.1, transform refs we.1 we.2.2)
        = (true, { st.hstate with
            edge_hash_set := st.hstate.edge_hash_set
              ++ [centroidKey normalize (transform refs we.1 we.2.1)
                    (transform refs we.1 we.2.2)] }) := by
      simp [is_new_edge, hm]
    rw [hr]
    simp only [ite_true, if_true]
    have h1 := add_new_edge_num_edges_le proj eye viewdir
      { st with hstate := { st.hstate with
          edge_hash_set := st.hstate.edge_hash_set
            ++ [centroidKey normalize (transform refs we.1 we.2.1)
                  (transform refs we.1 we.2.2)] } }
      (transform refs we.1 we.2.1, transform refs we.1 we.2.2)
    have h2 := add_new_edge_hash proj eye viewdir
      { st with hstate := { st.hstate with
          edge_hash_set := st.hstate.edge_hash_set
            ++ [centroidKey normalize (transform refs we.1 we.2.1)
                  (transform refs we.1 we.2.2)] } }
      (transform refs we.1 we.2.1, transform refs we.1 we.2.2)
    rw [h2]
    simp only [List.length_append, List.length_cons, List.length_nil] at *
    omega

/-- The view direction `generate_povray_data` computes. -/
def runViewdir (H : HoneycombData) (eye lookat : Vec) : Vec :=
  H.normalize (vsub lookat eye)

/-- The fundamental-cell results, as iterated by
`collect_fundamental_cell_edges`. -/
def runCells (H : HoneycombData) : List CellResult :=
  H.fundamental_cells.map Prod.snd

/-- All fundamental-cell edges in processing order. -/
def runAllEdges (H : HoneycombData) : List (Vec × Vec) :=
  ((runCells H).map CellResult.edge_coords).flatten

/-- The `(init_edges, state)` pair after the collection phase. -/
def runRes (H : HoneycombData) (h0 : HState) : List (Vec × Vec) × HState :=
  collect_fundamental_cell_edges H.normalize (runCells H) h0

/-- The run state at the start of the seed phase. -/
def runSigma1 (H : HoneycombData) (h0 : HState) : RunState :=
  { hstate := (runRes H h0).2, vertices := [], written := [] }

/-- The run state after the seed phase. -/
def runSigma2 (H : HoneycombData) (eye lookat : Vec) (h0 : HState) : RunState :=
  (runRes H h0).1.foldl (add_new_edge H.project eye (runViewdir H eye lookat))
    (runSigma1 H h0)

/-- The `(word, fundamental edge)` pairs of the expansion loop, in
iteration order. -/
def runExpPairs (H : HoneycombData) (gwords : List (List ℕ)) (h0 : HState) :
    List (List ℕ × (Vec × Vec)) :=
  gwords.flatMap (fun w => (runRes H h0).1.map (fun e => (w, e)))

/-- The instance state at every atomic point of one
`generate_povray_data` call: after each collected fundamental edge, after
each seed-phase emission, and after each `(word, edge)` expansion step. -/
def run_trace (H : HoneycombData) (gwords : List (List ℕ)) (eye lookat : Vec)
    (h0 : HState) : List HState :=
  ((runAllEdges H).scanl (collect_step H.normalize) ([], h0)).map Prod.snd
    ++ ((runRes H h0).1.scanl (add_new_edge H.project eye (runViewdir H eye lookat))
        (runSigma1 H h0)).map RunState.hstate
    ++ ((runExpPairs H gwords h0).scanl
        (expansion_step H.normalize H.project eye (runViewdir H eye lookat) H.reflections)
        (runSigma2 H eye lookat h0)).map RunState.hstate

theorem run_trace_last (H : HoneycombData) (gwords : List (List ℕ))
    (eye lookat : Vec) (h0 : HState) :
    (run_trace H gwords eye lookat h0).getLast?
      = some (generate_povray_data H gwords eye lookat h0).state := by
  unfold run_trace
  rw [List.getLast?_append_of_ne_nil _ (by simp [scanl_ne_nil]),
    List.getLast?_map, scanl_getLast]
  show some _ = some _
  congr 1
  show ((runExpPairs H gwords h0).foldl
    (expansion_step H.normalize H.project eye (runViewdir H eye lookat) H.reflections)
    (runSigma2 H eye lookat h0)).hstate = _
  unfold runExpPairs runSigma2 runSigma1 runRes runViewdir runCells
  rw [← expansion_eq_flatten]
  rfl

theorem head?_append_of_ne_nil {α : Type} (l₁ l₂ : List α) (h : l₁ ≠ []) :
    (l₁ ++ l₂).head? = l₁.head? := by
  cases l₁ with
  | nil => exact absurd rfl h
  | cons a l => rfl

theorem trace_collect_last (H : HoneycombData) (h0 : HState) :
    ((((runAllEdges H).scanl (collect_step H.normalize) ([], h0)).map
        Prod.snd).getLast?)
      = some (runRes H h0).2 := by
  rw [List.getLast?_map, scanl_getLast]
  show some _ = some _
  congr 1
  show ((runAllEdges H).foldl (collect_step H.normalize) ([], h0)).2 = _
  unfold runAllEdges runRes runCells collect_fundamental_cell_edges
  rw [← collect_eq_flatten]

/-- C10: in the expansion loop the registry is extended by `is_new_edge`
before the visibility cull runs, so (a) after any expansion step the
transformed edge's canonical midpoint is registered, whether or not it was
emitted; (b) a step whose midpoint is already registered changes nothing —
in particular it emits nothing, so once a newly discovered edge fails the
cull no later word producing the same canonical midpoint is ever emitted;
(c) along the whole run the registry only grows; (d) at every point of the
run `num_edges` is at most the registry's size; and (e) the trace ends in
exactly the state `generate_povray_data` returns. -/
theorem expansion_registry_discipline (H : HoneycombData)
    (gwords : List (List ℕ)) (eye lookat : Vec) :
    (∀ (st : RunState) (we : List ℕ × (Vec × Vec)),
      centroidKey H.normalize (transform H.reflections we.1 we.2.1)
          (transform H.reflections we.1 we.2.2)
        ∈ (expansion_step H.normalize H.project eye (runViewdir H eye lookat)
            H.reflections st we).hstate.edge_hash_set)
    ∧ (∀ (st : RunState) (we : List ℕ × (Vec × Vec)),
        centroidKey H.normalize (transform H.reflections we.1 we.2.1)
            (transform H.reflections we.1 we.2.2) ∈ st.hstate.edge_hash_set →
        expansion_step H.normalize H.project eye (runViewdir H eye lookat)
          H.reflections st we = st)
    ∧ (run_trace H gwords eye lookat freshHState).Chain'
        (fun a b => ∀ x ∈ a.edge_hash_set, x ∈ b.edge_hash_set)
    ∧ (∀ s ∈ run_trace H gwords eye lookat freshHState,
        s.num_edges ≤ s.edge_hash_set.length)
    ∧ (run_trace H gwords eye lookat freshHState).getLast?
        = some (generate_povray_data H gwords eye lookat freshHState).state := by
  refine ⟨?_, ?_, ?_, ?_, run_trace_last H gwords eye lookat freshHState⟩
  · intro st we
    simp only [expansion_step]
    split
    · rw [add_new_edge_hash]
      exact is_new_edge_registers H.normalize st.hstate _
    · exact is_new_edge_registers H.normalize st.hstate _
  · intro st we hmem
    simp only [expansion_step]
    rw [is_new_edge_false_of_mem _ _ _ hmem]
    simp
  · unfold run_trace
    have hC : List.Chain' (fun a b : HState => ∀ x ∈ a.edge_hash_set, x ∈ b.edge_hash_set)
        (((runExpPairs H gwords freshHState).scanl
          (expansion_step H.normalize H.project eye (runViewdir H eye lookat) H.reflections)
          (runSigma2 H eye lookat freshHState)).map RunState.hstate) := by
      rw [List.chain'_map]
      exact chain'_scanl _ _
        (fun s b => fun x hx => expansion_step_mono _ _ _ _ _ s b x hx) _ _
    have hB : List.Chain' (fun a b : HState => ∀ x ∈ a.edge_hash_set, x ∈ b.edge_hash_set)
        ((((runRes H freshHState).1.scanl
          (add_new_edge H.project eye (runViewdir H eye lookat))
          (runSigma1 H freshHState))).map RunState.hstate) := by
      rw [List.chain'_map]
      refine chain'_scanl _ _ (fun s b => ?_) _ _
      rw [add_new_edge_hash]
      exact fun x hx => hx
    have hA : List.Chain' (fun a b : HState => ∀ x ∈ a.edge_hash_set, x ∈ b.edge_hash_set)
        (((runAllEdges H).scanl (collect_step H.normalize) ([], freshHState)).map
          Prod.snd) := by
      rw [List.chain'_map]
      exact chain'_scanl _ _
        (fun s b => fun x hx => collect_step_mono H.normalize s b x hx) _ _
    refine (hA.append hB ?_).append hC ?_
    · intro x hx y hy
      rw [trace_collect_last] at hx
      rw [List.head?_map, scanl_head] at hy
      simp only [Option.map_some', Option.mem_def, Option.some.injEq] at hx hy
      subst hx
      subst hy
      intro z hz
      exact hz
    · intro x hx y hy
      rw [List.getLast?_append_of_ne_nil _ (by simp [scanl_ne_nil]),
        List.getLast?_map, scanl_getLast] at hx
      rw [List.head?_map, scanl_head] at hy
      simp only [Option.map_some', Option.mem_def, Option.some.injEq] at hx hy
      subst hx
      subst hy
      intro z hz
      show z ∈ (runSigma2 H eye lookat freshHState).hstate.edge_hash_set
      exact hz
  · intro s hs
    unfold run_trace at hs
    have hP1 : ((runAllEdges H).foldl (collect_step H.normalize) ([], freshHState)).2.num_edges
        + ((runAllEdges H).foldl (collect_step H.normalize) ([], freshHState)).1.length
        ≤ ((runAllEdges H).foldl (collect_step H.normalize)
            ([], freshHState)).2.edge_hash_set.length :=
      foldl_preserve
        (fun st : List (Vec × Vec) × HState =>
          st.2.num_edges + st.1.length ≤ st.2.edge_hash_set.length)
        (collect_step H.normalize)
        (fun st e h => collect_step_inv H.normalize st e h)
        (runAllEdges H) ([], freshHState) (by simp [freshHState])
    have hres : runRes H freshHState
        = (runAllEdges H).foldl (collect_step H.normalize) ([], freshHState) := by
      unfold runRes runAllEdges runCells collect_fundamental_cell_edges
      rw [← collect_eq_flatten]
    have hP1' : (runRes H freshHState).2.num_edges + (runRes H freshHState).1.length
        ≤ (runRes H freshHState).2.edge_hash_set.length := by
      rw [hres]; exact hP1
    rcases List.mem_append.mp hs with hAB | h'
    rcases List.mem_append.mp hAB with h | h'
    · obtain ⟨st, hst, hsts⟩ := List.mem_map.mp h
      have := scanl_all
        (fun st : List (Vec × Vec) × HState =>
          st.2.num_edges + st.1.length ≤ st.2.edge_hash_set.length)
        (collect_step H.normalize)
        (fun st e hP => collect_step_inv H.normalize st e hP)
        (runAllEdges H) ([], freshHState) (by simp [freshHState]) st hst
      subst hsts
      omega
    · obtain ⟨st, hst, hsts⟩ := List.mem_map.mp h'
      have := seed_scanl_inv H.project eye (runViewdir H eye lookat)
        (runRes H freshHState).1 (runSigma1 H freshHState)
        (by
          show (runRes H freshHState).2.num_edges + _ ≤ _
          exact hP1')
        st hst
      subst hsts
      exact this
    · obtain ⟨st, hst, hsts⟩ := List.mem_map.mp h'
      have hσ2 : (runSigma2 H eye lookat freshHState).hstate.num_edges
          ≤ (runSigma2 H eye lookat freshHState).hstate.edge_hash_set.length := by
        have h1 := seed_foldl_num H.project eye (runViewdir H eye lookat)
          (runRes H freshHState).1 (runSigma1 H freshHState)
        have h2 : (runSigma2 H eye lookat freshHState).hstate.edge_hash_set
            = (runRes H freshHState).2.edge_hash_set := by
          unfold runSigma2
          rw [seed_fold_hash]
          rfl
        unfold runSigma2 at *
        rw [h2]
        have h3 : (runSigma1 H freshHState).hstate.num_edges
            = (runRes H freshHState).2.num_edges := rfl
        omega
      have := scanl_all
        (fun σ : RunState =>
          σ.hstate.num_edges ≤ σ.hstate.edge_hash_set.length)
        (expansion_step H.normalize H.project eye (runViewdir H eye lookat) H.reflections)
        (fun σ we hP => expansion_step_inv _ _ _ _ _ σ we hP)
        (runExpPairs H gwords freshHState) (runSigma2 H eye lookat freshHState)
        hσ2 st hst
      subst hsts
      exact this

/-- Concrete instance of C10's no-re-emission discipline: a step whose
transformed edge has an already-registered midpoint leaves the run state
(and so the written output) unchanged. -/
theorem expansion_registry_discipline_witness :
    (centroidKey wHoneycomb.normalize
        (transform wHoneycomb.reflections [] [(1 : ℚ)])
        (transform wHoneycomb.reflections [] [(1 : ℚ)])
      ∈ ({ hstate := { edge_hash_set := [[(2 : ℚ)]], num_vertices := 0, num_edges := 0 },
            vertices := [], written := [] } : RunState).hstate.edge_hash_set)
    ∧ expansion_step wHoneycomb.normalize wHoneycomb.project []
        (runViewdir wHoneycomb [] []) wHoneycomb.reflections
        { hstate := { edge_hash_set := [[(2 : ℚ)]], num_vertices := 0, num_edges := 0 },
          vertices := [], written := [] }
        ([], ([(1 : ℚ)], [(1 : ℚ)]))
      = { hstate := { edge_hash_set := [[(2 : ℚ)]], num_vertices := 0, num_edges := 0 },
          vertices := [], written := [] } := by
  have hkey : centroidKey wHoneycomb.normalize
      (transform wHoneycomb.reflections [] [(1 : ℚ)])
      (transform wHoneycomb.reflections [] [(1 : ℚ)]) = [(2 : ℚ)] := by
    norm_num [centroidKey, transform, transform_raw, vround, roundTo8, round_eq,
      vadd, wHoneycomb]
  have hmem : centroidKey wHoneycomb.normalize
      (transform wHoneycomb.reflections [] [(1 : ℚ)])
      (transform wHoneycomb.reflections [] [(1 : ℚ)])
      ∈ ({ hstate := { edge_hash_set := [[(2 : ℚ)]], num_vertices := 0, num_edges := 0 },
            vertices := [], written := [] } : RunState).hstate.edge_hash_set := by
    rw [hkey]
    exact List.mem_singleton.mpr rfl
  exact ⟨hmem,
    (expansion_registry_discipline wHoneycomb [] [] []).2.1 _ _ hmem⟩
